import Mathlib

/-!
Shallow embedding of `django_compositeform/forms.py` (davidmroth/django-superform).

The module defines a metaclass-level collector `get_declared_composite_fields`,
a validation mixin `CompositeFormMixin` (`_init_composite_fields`, `full_clean`)
and a persistence mixin `CompositeModelFormMixin` (`save`, `save_forms`,
`save_formsets`, `_extend_save_m2m`).  Side-effecting calls (the framework's
save, each field's `save`, the deferred many-to-many callbacks) are modelled as
event traces; the callbacks stored in `save_m2m` / `save_forms_m2m` /
`save_formsets_m2m` are represented by the trace they emit when invoked, which
is faithful because every closure in the source captures its data at creation
time and is never mutated afterwards.
-/

/-- Observable side effects of the save machinery: the host framework's
`super().save(commit)`, a composite field's `field.save(self, name, composite,
commit)`, the parent's original deferred m2m save body, and a composite's own
`save_m2m()` (identified by a tag carried by the composite). -/
inductive Event where
  | frameworkSave (commit : Bool)
  | fieldSave (name : String) (commit : Bool)
  | origM2m
  | compM2m (tag : Nat)
deriving DecidableEq, Repr

/-- An instantiated sub-form or sub-formset as the parent observes it:
whether it is bound, its post-`full_clean` error list, and its optional
`save_m2m` callback (`none` when `hasattr(composite, 'save_m2m')` is false,
`some tag` when invoking it emits `Event.compM2m tag`). -/
structure Composite where
  bound : Bool
  errors : List String
  m2m : Option Nat
deriving DecidableEq, Repr

/-- Django `Form.is_valid` / `BaseFormSet.is_valid`: bound and error-free. -/
def Composite.is_valid (c : Composite) : Bool :=
  c.bound && c.errors.isEmpty

/-- Modelled from the spec: `CompositeField` lives in the repository's
`fields.py`, which is not part of the sources; per the spec it carries a
monotonic `creation_counter` and the optional capabilities `get_form`,
`get_formset` and `save`.  A capability being declared is modelled as the
corresponding component being `some`/`true`; the `get_form`/`get_formset`
factories are external collaborators, so the composite they would build is
recorded directly. -/
structure CompositeField where
  creation_counter : Nat
  get_form : Option Composite
  get_formset : Option Composite
  save : Bool
deriving DecidableEq, Repr

/-- A class-namespace entry: either a `CompositeField` instance or any other
attribute (`isinstance(obj, CompositeField)` fails on it). -/
inductive Attr where
  | composite (f : CompositeField)
  | other
deriving DecidableEq

/-- The sort key used at line 96 of `forms.py`:
`composite_fields.sort(key=lambda x: x[1].creation_counter)`. -/
def counterLe (x y : String × CompositeField) : Bool :=
  x.2.creation_counter ≤ y.2.creation_counter

/-- Python dict assignment `d[k] = v` on an association list (also the per-pair
step of Django's `SortedDict(data)` constructor): replace the value at the
first occurrence of the key, keeping its position, else append. -/
def dictSet : List (String × α) → String × α → List (String × α)
  | [], kv => [kv]
  | p :: rest, kv =>
      if p.1 = kv.1 then (kv.1, kv.2) :: rest else p :: dictSet rest kv

/-- Django `SortedDict(list_of_pairs)`: ordering taken from the first
occurrence of a key, value from the last. -/
def SortedDict (l : List (String × α)) : List (String × α) :=
  l.foldl dictSet []

/-- Insert a pair into an already sorted list, placing it after every element
that is strictly below it, so equal keys keep their original relative order.
This realises Python's stable `list.sort`. -/
def ordered_insert (x : String × CompositeField) :
    List (String × CompositeField) → List (String × CompositeField)
  | [] => [x]
  | y :: ys =>
      if counterLe y x && !counterLe x y then y :: ordered_insert x ys
      else x :: y :: ys

/-- Stable sort by `creation_counter`, modelling
`composite_fields.sort(key=lambda x: x[1].creation_counter)`. -/
def stable_sort : List (String × CompositeField) → List (String × CompositeField)
  | [] => []
  | x :: xs => ordered_insert x (stable_sort xs)

/-- `get_declared_composite_fields(bases, attrs)` from `forms.py` lines 86-106:
extract the `CompositeField` entries of the namespace, sort them by creation
counter (stably), loop over the bases in reverse prepending each base's own
`composite_fields` when it has one, and build a `SortedDict`.  A base without
the attribute is `none`. -/
def get_declared_composite_fields
    (bases : List (Option (List (String × CompositeField))))
    (attrs : List (String × Attr)) : List (String × CompositeField) :=
  let composite_fields := attrs.filterMap fun na =>
    match na.2 with
    | .composite f => some (na.1, f)
    | .other => none
  let sorted := stable_sort composite_fields
  let merged := bases.reverse.foldl
    (fun acc base =>
      match base with
      | some base_fields => base_fields ++ acc
      | none => acc)
    sorted
  SortedDict merged

/-- Shape of one value of the parent's error collection: `ErrorDict(errs)` for
a failing sub-form, `ErrorList(errs)` for a failing sub-formset (the parent's
own entries are kept abstract as either shape). -/
inductive ErrorEntry where
  | edict (errs : List String)
  | elist (errs : List String)
deriving DecidableEq, Repr

/-- The parent form as the mixins observe it: its (already collected)
`composite_fields` mapping, whether it is bound, the error dict its own
`super().full_clean()` produces, and the model object `super().save` returns
(abstracted as a tag). -/
structure ParentForm where
  composite_fields : List (String × CompositeField)
  bound : Bool
  base_errors : List (String × ErrorEntry)
  inst : Nat

/-- `_init_composite_fields` (lines 161-174): one pass over
`composite_fields`, appending `field.get_form(self, name)` to `self.forms`
when the field has `get_form` and `field.get_formset(self, name)` to
`self.formsets` when it has `get_formset`. -/
def init_composite_fields (cfs : List (String × CompositeField)) :
    List (String × Composite) × List (String × Composite) :=
  cfs.foldl
    (fun acc nf =>
      let acc1 :=
        match nf.2.get_form with
        | some form => (acc.1 ++ [(nf.1, form)], acc.2)
        | none => acc
      match nf.2.get_formset with
      | some formset => (acc1.1, acc1.2 ++ [(nf.1, formset)])
      | none => acc1)
    ([], [])

/-- The per-instance `self.forms` mapping. -/
def ParentForm.forms (p : ParentForm) : List (String × Composite) :=
  (init_composite_fields p.composite_fields).1

/-- The per-instance `self.formsets` mapping. -/
def ParentForm.formsets (p : ParentForm) : List (String × Composite) :=
  (init_composite_fields p.composite_fields).2

/-- One validation loop of `CompositeFormMixin.full_clean`: walk the given
mapping in order, fully clean each composite (its post-clean state is already
in the `Composite` record) and, when it is invalid, assign its error structure
(built by `mk`) into the error dict under its field name. -/
def attach_errors (mk : Composite → ErrorEntry)
    (l : List (String × Composite)) (e0 : List (String × ErrorEntry)) :
    List (String × ErrorEntry) :=
  l.foldl
    (fun e kc => if kc.2.is_valid then e else dictSet e (kc.1, mk kc.2))
    e0

/-- `CompositeFormMixin.full_clean` (lines 176-190): run the base class's
`full_clean` (its result is `p.base_errors`), then for each sub-form in order
attach `ErrorDict(composite.errors)` under its name when invalid, then the
same for each sub-formset with `ErrorList(composite.errors)`. -/
def full_clean (p : ParentForm) : List (String × ErrorEntry) :=
  attach_errors (fun c => ErrorEntry.elist c.errors) p.formsets
    (attach_errors (fun c => ErrorEntry.edict c.errors) p.forms p.base_errors)

/-- Django `Form.is_valid`: `self.is_bound and not self.errors`, where
`self.errors` triggers `full_clean`. -/
def ParentForm.is_valid (p : ParentForm) : Bool :=
  p.bound && (full_clean p).isEmpty

/-- State of the three deferred-m2m callback attributes on the parent
instance; `none` means `hasattr` is false, `some tr` means invoking the stored
callback emits the trace `tr`. -/
structure M2mState where
  save_m2m : Option (List Event)
  save_forms_m2m : Option (List Event)
  save_formsets_m2m : Option (List Event)
deriving DecidableEq, Repr

/-- A fresh instance: none of the three callback attributes exist yet. -/
def initState : M2mState := ⟨none, none, none⟩

/-- `composite.save_m2m` when present: invoking it emits its tag. -/
def composite_save_m2m (c : Composite) : Option (List Event) :=
  c.m2m.map fun tag => [Event.compM2m tag]

/-- `_extend_save_m2m(self, name, composites)` (lines 207-231): collect the
`save_m2m` callbacks of the given composites; if none, return unchanged.
Otherwise set `self.save_m2m` to a wrapper running the previous `save_m2m`
(or nothing when absent) followed by the collected callbacks, and store the
collected-callbacks closure under the attribute called `name`. -/
def extend_save_m2m (st : M2mState) (name : String) (composites : List Composite) :
    M2mState :=
  let additional_save_m2m := composites.filterMap composite_save_m2m
  if additional_save_m2m.isEmpty then st
  else
    let additional_saves : List Event := additional_save_m2m.flatten
    let original_save_m2m : List Event :=
      match st.save_m2m with
      | some f => f
      | none => []
    let augmented_save_m2m := original_save_m2m ++ additional_saves
    let st1 := { st with save_m2m := some augmented_save_m2m }
    if name = "save_forms_m2m" then
      { st1 with save_forms_m2m := some additional_saves }
    else if name = "save_formsets_m2m" then
      { st1 with save_formsets_m2m := some additional_saves }
    else st1

/-- The loop shared by `save_forms` and `save_formsets` (lines 234-239 and
250-255): for each entry of the given mapping, look its field up in
`composite_fields` and, when the field has `save`, call
`field.save(self, name, composite, commit)` and record the composite.  (The
lookup key always exists, since both mappings are built from
`composite_fields`.) -/
def save_loop (p : ParentForm) (l : List (String × Composite)) (commit : Bool) :
    List Event × List Composite :=
  l.foldl
    (fun acc kc =>
      match p.composite_fields.lookup kc.1 with
      | some field =>
          if field.save then
            (acc.1 ++ [Event.fieldSave kc.1 commit], acc.2 ++ [kc.2])
          else acc
      | none => acc)
    ([], [])

/-- `save_forms(self, commit)` (lines 233-241): run the save loop over
`self.forms`, then `_extend_save_m2m('save_forms_m2m', saved_composites)`. -/
def save_forms (p : ParentForm) (st : M2mState) (commit : Bool) :
    List Event × M2mState :=
  let step := save_loop p p.forms commit
  (step.1, extend_save_m2m st "save_forms_m2m" step.2)

/-- `save_formsets(self, commit)` (lines 243-257): run the save loop over
`self.formsets`, then `_extend_save_m2m('save_formsets_m2m', saved_composites)`. -/
def save_formsets (p : ParentForm) (st : M2mState) (commit : Bool) :
    List Event × M2mState :=
  let step := save_loop p p.formsets commit
  (step.1, extend_save_m2m st "save_formsets_m2m" step.2)

/-- Modelled from the spec: the host framework's `ModelForm.save(commit)`
(the `super().save` call, external to this repository) saves the instance,
returns it, and when `commit` is disabled attaches a deferred m2m callback
`self.save_m2m` whose invocation performs the parent's own m2m save. -/
def framework_save (p : ParentForm) (st : M2mState) (commit : Bool) :
    Nat × List Event × M2mState :=
  (p.inst, [Event.frameworkSave commit],
    if commit then st else { st with save_m2m := some [Event.origM2m] })

/-- `CompositeModelFormMixin.save(self, commit)` (lines 194-205):
`saved_obj = super().save(commit)`, then `save_forms(commit)`, then
`save_formsets(commit)`, returning `saved_obj`. -/
def ParentForm.save (p : ParentForm) (st : M2mState) (commit : Bool) :
    Nat × List Event × M2mState :=
  let s0 := framework_save p st commit
  let s1 := save_forms p s0.2.2 commit
  let s2 := save_formsets p s1.2 commit
  (s0.1, s0.2.1 ++ s1.1 ++ s2.1, s2.2)

/-- Modelled from the spec: the unmodified base form's `full_clean` is just
the framework's own validation, producing `base_errors`. -/
def base_full_clean (p : ParentForm) : List (String × ErrorEntry) :=
  p.base_errors

/-- Modelled from the spec: the unmodified base form's `is_valid`. -/
def base_is_valid (p : ParentForm) : Bool :=
  p.bound && (base_full_clean p).isEmpty

/-- Modelled from the spec: the unmodified base model form's `save` is the
framework save alone. -/
def base_save (p : ParentForm) (st : M2mState) (commit : Bool) :
    Nat × List Event × M2mState :=
  framework_save p st commit

/-! ### Derived characterisations (used to state the verified properties) -/

/-- Namespace entries that are `CompositeField` instances, in declaration
order (the list comprehension at lines 91-94). -/
def own_fields (attrs : List (String × Attr)) : List (String × CompositeField) :=
  attrs.filterMap fun na =>
    match na.2 with
    | .composite f => some (na.1, f)
    | .other => none

/-- All composite fields contributed by the base classes, in base declaration
order (bases lacking a `composite_fields` attribute contribute nothing). -/
def bases_fields (bases : List (Option (List (String × CompositeField)))) :
    List (String × CompositeField) :=
  (bases.filterMap id).flatten

/-- Whether the field registered under `n` declares the `save` capability
(`hasattr(self.composite_fields[name], 'save')` guarded by the lookup). -/
def lookup_save (cfs : List (String × CompositeField)) (n : String) : Bool :=
  match cfs.lookup n with
  | some f => f.save
  | none => false

/-- The sub-form entries `_init_composite_fields` produces, directly as a
filter of the declaration mapping. -/
def forms_of (cfs : List (String × CompositeField)) : List (String × Composite) :=
  cfs.filterMap fun nf => nf.2.get_form.map fun c => (nf.1, c)

/-- The sub-formset entries `_init_composite_fields` produces. -/
def formsets_of (cfs : List (String × CompositeField)) : List (String × Composite) :=
  cfs.filterMap fun nf => nf.2.get_formset.map fun c => (nf.1, c)

/-- The sub-forms whose field also declares `save`, i.e. the composites the
sub-form save phase actually saves, in declaration order. -/
def saved_forms_decl (cfs : List (String × CompositeField)) :
    List (String × Composite) :=
  cfs.filterMap fun nf =>
    match nf.2.get_form with
    | some c => if nf.2.save then some (nf.1, c) else none
    | none => none

/-- The sub-formsets whose field also declares `save`. -/
def saved_formsets_decl (cfs : List (String × CompositeField)) :
    List (String × Composite) :=
  cfs.filterMap fun nf =>
    match nf.2.get_formset with
    | some c => if nf.2.save then some (nf.1, c) else none
    | none => none

/-- The `compM2m` events of the composites in the list that expose a
`save_m2m` callback, in order. -/
def m2m_events (comps : List Composite) : List Event :=
  comps.filterMap fun c => c.m2m.map Event.compM2m

/-- Deferred m2m events of the saved sub-forms, in declaration order. -/
def saved_form_m2ms (cfs : List (String × CompositeField)) : List Event :=
  m2m_events ((saved_forms_decl cfs).map Prod.snd)

/-- Deferred m2m events of the saved sub-formsets, in declaration order. -/
def saved_formset_m2ms (cfs : List (String × CompositeField)) : List Event :=
  m2m_events ((saved_formsets_decl cfs).map Prod.snd)

/-- The `field.save` calls of the sub-form phase, in declaration order. -/
def form_save_events (cfs : List (String × CompositeField)) (commit : Bool) :
    List Event :=
  (saved_forms_decl cfs).map fun kc => Event.fieldSave kc.1 commit

/-- The `field.save` calls of the sub-formset phase, in declaration order. -/
def formset_save_events (cfs : List (String × CompositeField)) (commit : Bool) :
    List Event :=
  (saved_formsets_decl cfs).map fun kc => Event.fieldSave kc.1 commit

/-- Recogniser for the framework-save event. -/
def is_framework_save : Event → Bool
  | .frameworkSave _ => true
  | _ => false

/-- The composites the sub-form save phase saves, as the loop computes them. -/
def saved_form_composites (p : ParentForm) : List Composite :=
  (p.forms.filter fun kc => lookup_save p.composite_fields kc.1).map Prod.snd

/-- The composites the sub-formset save phase saves. -/
def saved_formset_composites (p : ParentForm) : List Composite :=
  (p.formsets.filter fun kc => lookup_save p.composite_fields kc.1).map Prod.snd

/-! ### Concrete instances used by counterexamples and witnesses -/

/-- An invalid sub-form composite. -/
def cFormBad : Composite := ⟨true, ["form error"], none⟩

/-- An invalid sub-formset composite with different errors. -/
def cFsBad : Composite := ⟨true, ["formset error"], none⟩

/-- A field declaring both `get_form` and `get_formset` (no `save`). -/
def fBoth : CompositeField := ⟨0, some cFormBad, some cFsBad, false⟩

/-- Parent with a single both-capability field whose sub-form and sub-formset
are both invalid. -/
def pOverlap : ParentForm := ⟨[("a", fBoth)], true, [], 0⟩

/-- A valid composite exposing a `save_m2m` callback tagged 7. -/
def cM2m7 : Composite := ⟨true, [], some 7⟩

/-- A form-capability field without `save` whose composite exposes `save_m2m`. -/
def fNoSave : CompositeField := ⟨0, some cM2m7, none, false⟩

/-- Parent with one form composite that exposes `save_m2m` but whose field
declares no `save` capability. -/
def pNoSave : ParentForm := ⟨[("a", fNoSave)], true, [], 3⟩

/-- A valid composite exposing `save_m2m` tagged 1. -/
def cM2m1 : Composite := ⟨true, [], some 1⟩

/-- A valid composite exposing `save_m2m` tagged 2. -/
def cM2m2 : Composite := ⟨true, [], some 2⟩

/-- A form-capability field with `save` whose composite is `cM2m1`. -/
def fFormSave : CompositeField := ⟨0, some cM2m1, none, true⟩

/-- A formset-capability field with `save` whose composite is `cM2m2`. -/
def fFsSave : CompositeField := ⟨1, none, some cM2m2, true⟩

/-- Parent with one saved sub-form and one saved sub-formset, both exposing
`save_m2m`. -/
def pTwoPhase : ParentForm := ⟨[("a", fFormSave), ("b", fFsSave)], true, [], 3⟩

/-- A valid sub-form composite. -/
def cGood : Composite := ⟨true, [], none⟩

/-- An invalid sub-form composite with errors `["B invalid"]`. -/
def cBBad : Composite := ⟨true, ["B invalid"], none⟩

/-- Field A: a valid sub-form. -/
def fA : CompositeField := ⟨0, some cGood, none, false⟩

/-- Field B: an invalid sub-form. -/
def fB : CompositeField := ⟨1, some cBBad, none, false⟩

/-- Parent with two sub-forms: A valid, B invalid. -/
def pAB : ParentForm := ⟨[("A", fA), ("B", fB)], true, [], 0⟩

/-- A both-capability field that also declares `save`. -/
def fBothSave : CompositeField := ⟨0, some cM2m1, some cM2m2, true⟩

/-- Parent with a single both-capability field declaring `save`. -/
def pBothSave : ParentForm := ⟨[("x", fBothSave)], true, [], 9⟩

/-- A form-capability field with `save` whose composite has no `save_m2m`. -/
def fPlainSave : CompositeField := ⟨0, some cGood, none, true⟩

/-- Parent whose only saved composite exposes no `save_m2m`. -/
def pPlain : ParentForm := ⟨[("a", fPlainSave)], true, [], 4⟩

/-- Parent with no composite fields and a pre-existing own error. -/
def pEmpty : ParentForm := ⟨[], true, [("f", ErrorEntry.elist ["x"])], 5⟩

/-- Parent with an invalid sub-form `fA2` and an invalid sub-formset `fB2`
at distinct names. -/
def pDistinct : ParentForm :=
  ⟨[("fA2", ⟨0, some cFormBad, none, false⟩),
    ("fB2", ⟨1, none, some cFsBad, false⟩)], true, [], 0⟩

/-- A capability-free field with a given creation counter. -/
def wField (n : Nat) : CompositeField := ⟨n, none, none, false⟩

/-- Concrete bases for the collector: one base with a `composite_fields`
attribute, one without. -/
def wBases : List (Option (List (String × CompositeField))) :=
  [some [("x", wField 0)], none]

/-- Concrete namespace: three composite fields (two with tied counters) and
one unrelated attribute. -/
def wAttrs : List (String × Attr) :=
  [("b", Attr.composite (wField 3)), ("j", Attr.other),
   ("a", Attr.composite (wField 3)), ("c", Attr.composite (wField 1))]

/-! ### Lemmas about `dictSet` and `SortedDict` -/

theorem lookup_dictSet_self (e : List (String × α)) (k : String) (v : α) :
    (dictSet e (k, v)).lookup k = some v := by
  induction e with
  | nil => simp [dictSet, List.lookup]
  | cons q rest ih =>
      by_cases h : q.1 = k
      · simp [dictSet, h, List.lookup]
      · have hbe : (k == q.1) = false := by
          simp only [beq_eq_false_iff_ne, ne_eq]
          exact fun he => h he.symm
        simp [dictSet, h, List.lookup, hbe, ih]

theorem lookup_dictSet_ne (e : List (String × α)) (k k' : String) (v : α)
    (h : k' ≠ k) : (dictSet e (k, v)).lookup k' = e.lookup k' := by
  have hbe : (k' == k) = false := by
    simp only [beq_eq_false_iff_ne, ne_eq]
    exact h
  induction e with
  | nil => simp [dictSet, List.lookup, hbe]
  | cons q rest ih =>
      by_cases hq : q.1 = k
      · subst hq
        simp [dictSet, List.lookup, hbe]
      · by_cases hq' : k' = q.1
        · simp [dictSet, hq, List.lookup, hq', ih]
        · have hbe' : (k' == q.1) = false := by
            simp only [beq_eq_false_iff_ne, ne_eq]
            exact hq'
          simp [dictSet, hq, List.lookup, hbe', ih]

theorem dictSet_fresh (e : List (String × α)) (k : String) (v : α)
    (h : ∀ q ∈ e, q.1 ≠ k) : dictSet e (k, v) = e ++ [(k, v)] := by
  induction e with
  | nil => simp [dictSet]
  | cons q rest ih =>
      have hq : q.1 ≠ k := h q (by simp)
      simp only [dictSet, if_neg hq, List.cons_append, List.cons.injEq, true_and]
      exact ih fun r hr => h r (by simp [hr])

theorem foldl_dictSet_fresh (l : List (String × α)) :
    ∀ acc : List (String × α),
      (l.map Prod.fst).Nodup → (∀ q ∈ acc, ∀ r ∈ l, q.1 ≠ r.1) →
      l.foldl dictSet acc = acc ++ l := by
  induction l with
  | nil =>
      intro acc _ _
      simp
  | cons kv rest ih =>
      intro acc hnd hdisj
      have hfresh : ∀ q ∈ acc, q.1 ≠ kv.1 := fun q hq => hdisj q hq kv (by simp)
      have h1 : dictSet acc kv = acc ++ [kv] := by
        have h2 := dictSet_fresh acc kv.1 kv.2 hfresh
        simpa using h2
      have hnd1 : (kv.1 :: rest.map Prod.fst).Nodup := by simpa using hnd
      have hnd0 := List.nodup_cons.mp hnd1
      have hdisj' : ∀ q ∈ acc ++ [kv], ∀ r ∈ rest, q.1 ≠ r.1 := by
        intro q hq r hr
        rcases List.mem_append.mp hq with hqa | hqk
        · exact hdisj q hqa r (by simp [hr])
        · have hq' : q = kv := by simpa using hqk
          subst hq'
          intro heq
          exact hnd0.1 (by
            rw [heq]
            exact List.mem_map.mpr ⟨r, hr, rfl⟩)
      have h3 := ih (acc ++ [kv]) hnd0.2 hdisj'
      simp only [List.foldl_cons, h1, h3, List.append_assoc, List.singleton_append]

theorem SortedDict_of_nodup (l : List (String × α))
    (hnd : (l.map Prod.fst).Nodup) : SortedDict l = l := by
  have h := foldl_dictSet_fresh l [] hnd (by intro q hq; simp at hq)
  simpa [SortedDict] using h

/-! ### Lemmas about the stable sort -/

theorem counterLe_iff {x y : String × CompositeField} :
    counterLe x y = true ↔ x.2.creation_counter ≤ y.2.creation_counter := by
  simp [counterLe]

theorem counterLe_total (x y : String × CompositeField) :
    counterLe x y = true ∨ counterLe y x = true := by
  rcases Nat.le_total x.2.creation_counter y.2.creation_counter with h | h
  · exact Or.inl (counterLe_iff.mpr h)
  · exact Or.inr (counterLe_iff.mpr h)

theorem counterLe_trans {x y z : String × CompositeField}
    (h1 : counterLe x y = true) (h2 : counterLe y z = true) :
    counterLe x z = true :=
  counterLe_iff.mpr (Nat.le_trans (counterLe_iff.mp h1) (counterLe_iff.mp h2))

theorem ordered_insert_perm (x : String × CompositeField)
    (l : List (String × CompositeField)) :
    List.Perm (ordered_insert x l) (x :: l) := by
  induction l with
  | nil => simp [ordered_insert]
  | cons y ys ih =>
      by_cases h : counterLe y x && !counterLe x y
      · have h1 : ordered_insert x (y :: ys) = y :: ordered_insert x ys := by
          simp [ordered_insert, h]
        rw [h1]
        exact (List.Perm.cons y ih).trans (List.Perm.swap x y ys)
      · have h1 : ordered_insert x (y :: ys) = x :: y :: ys := by
          simp [ordered_insert, h]
        rw [h1]

theorem stable_sort_perm (l : List (String × CompositeField)) :
    List.Perm (stable_sort l) l := by
  induction l with
  | nil => simp [stable_sort]
  | cons x xs ih =>
      exact (ordered_insert_perm x (stable_sort xs)).trans (List.Perm.cons x ih)

theorem mem_ordered_insert {a x : String × CompositeField}
    {l : List (String × CompositeField)} :
    a ∈ ordered_insert x l ↔ a = x ∨ a ∈ l := by
  rw [(ordered_insert_perm x l).mem_iff]
  exact List.mem_cons

theorem pairwise_ordered_insert (x : String × CompositeField)
    (l : List (String × CompositeField))
    (hl : l.Pairwise fun a b => counterLe a b = true) :
    (ordered_insert x l).Pairwise fun a b => counterLe a b = true := by
  induction l with
  | nil => simp [ordered_insert]
  | cons y ys ih =>
      rcases List.pairwise_cons.mp hl with ⟨hy, hys⟩
      by_cases h : counterLe y x && !counterLe x y
      · have hyx : counterLe y x = true := by
          have h' : counterLe y x = true ∧ ¬counterLe x y = true := by simpa using h
          exact h'.1
        simp only [ordered_insert, if_pos h]
        refine List.pairwise_cons.mpr ⟨?_, ih hys⟩
        intro b hb
        rcases mem_ordered_insert.mp hb with hbx | hbl
        · subst hbx
          exact hyx
        · exact hy b hbl
      · have hxy : counterLe x y = true := by
          have h' : ¬(counterLe y x = true ∧ ¬counterLe x y = true) := by simpa using h
          rcases not_and_or.mp h' with h1 | h2
        
          · rcases counterLe_total x y with hc | hc
            · exact hc
            · exact absurd hc h1
          · exact not_not.mp h2
        simp only [ordered_insert, if_neg h]
        refine List.pairwise_cons.mpr ⟨?_, hl⟩
        intro b hb
        rcases List.mem_cons.mp hb with hby | hbys
        · subst hby
          exact hxy
        · exact counterLe_trans hxy (hy b hbys)

theorem stable_sort_pairwise (l : List (String × CompositeField)) :
    (stable_sort l).Pairwise fun a b => counterLe a b = true := by
  induction l with
  | nil => simp [stable_sort]
  | cons x xs ih => exact pairwise_ordered_insert x (stable_sort xs) ih

theorem sublist_ordered_insert (x : String × CompositeField)
    (l : List (String × CompositeField)) : List.Sublist l (ordered_insert x l) := by
  induction l with
  | nil => simp [ordered_insert]
  | cons y ys ih =>
      by_cases h : counterLe y x && !counterLe x y
      · simp only [ordered_insert, if_pos h]
        exact List.Sublist.cons₂ y ih
      · simp only [ordered_insert, if_neg h]
        exact List.Sublist.cons x (List.Sublist.refl (y :: ys))

theorem pair_sublist_ordered_insert {a b : String × CompositeField}
    (hab : counterLe a b = true)
    (l : List (String × CompositeField)) (hb : b ∈ l) :
    List.Sublist [a, b] (ordered_insert a l) := by
  induction l with
  | nil => simp at hb
  | cons y ys ih =>
      by_cases h : counterLe y a && !counterLe a y
      · simp only [ordered_insert, if_pos h]
        rcases List.mem_cons.mp hb with hby | hbys
        · exfalso
          subst hby
          have h' : counterLe b a = true ∧ ¬counterLe a b = true := by simpa using h
          exact h'.2 hab
        · exact List.Sublist.cons y (ih hbys)
      · simp only [ordered_insert, if_neg h]
        exact List.Sublist.cons₂ a (List.singleton_sublist.mpr hb)

theorem stable_sort_stable {a b : String × CompositeField}
    (hab : counterLe a b = true) :
    ∀ l : List (String × CompositeField),
      List.Sublist [a, b] l → List.Sublist [a, b] (stable_sort l) := by
  intro l
  induction l with
  | nil =>
      intro h
      cases h
  | cons y ys ih =>
      intro h
      cases h with
      | cons _ h' =>
          exact (ih h').trans (sublist_ordered_insert y (stable_sort ys))
      | cons₂ _ h' =>
          have hbmem : b ∈ ys := List.singleton_sublist.mp h'
          have hbmem' : b ∈ stable_sort ys := (stable_sort_perm ys).mem_iff.mpr hbmem
          exact pair_sublist_ordered_insert hab (stable_sort ys) hbmem'

theorem foldl_reverse_bases
    (bases : List (Option (List (String × CompositeField))))
    (init : List (String × CompositeField)) :
    bases.reverse.foldl
      (fun acc base =>
        match base with
        | some base_fields => base_fields ++ acc
        | none => acc)
      init = bases_fields bases ++ init := by
  induction bases with
  | nil => simp [bases_fields]
  | cons b bs ih =>
      rw [List.reverse_cons, List.foldl_append]
      simp only [List.foldl_cons, List.foldl_nil]
      rw [ih]
      cases b with
      | none => simp [bases_fields]
      | some bf => simp [bases_fields, List.append_assoc]

/-! ### C1 -/

/-- C1: the metaclass collector lists ancestor-declared composite fields
before the ones the class body adds, and the class body's own fields appear
sorted by creation counter, stably, so fields with tied counters keep their
declaration order; when no name is declared twice, the resulting ordered
mapping is exactly the ancestors' entries followed by the sorted own
entries. -/
theorem metaclass_collection_order
    (bases : List (Option (List (String × CompositeField))))
    (attrs : List (String × Attr))
    (hnd : ((bases_fields bases ++ stable_sort (own_fields attrs)).map Prod.fst).Nodup) :
    get_declared_composite_fields bases attrs =
      bases_fields bases ++ stable_sort (own_fields attrs) ∧
    List.Perm (stable_sort (own_fields attrs)) (own_fields attrs) ∧
    (stable_sort (own_fields attrs)).Pairwise (fun a b => counterLe a b = true) ∧
    (∀ a b : String × CompositeField,
      a.2.creation_counter = b.2.creation_counter →
      List.Sublist [a, b] (own_fields attrs) →
      List.Sublist [a, b] (stable_sort (own_fields attrs))) := by
  refine ⟨?_, stable_sort_perm _, stable_sort_pairwise _, ?_⟩
  · have hshape : get_declared_composite_fields bases attrs =
        SortedDict (bases.reverse.foldl
          (fun acc base =>
            match base with
            | some base_fields => base_fields ++ acc
            | none => acc)
          (stable_sort (own_fields attrs))) := rfl
    rw [hshape, foldl_reverse_bases, SortedDict_of_nodup _ hnd]
  · intro a b heq hsub
    exact stable_sort_stable (counterLe_iff.mpr (Nat.le_of_eq heq)) _ hsub

/-- C1 witness: the collector applied to a concrete hierarchy (one base with
a field, one base without a mapping, a namespace with tied counters). -/
theorem metaclass_collection_order_witness :
    ((bases_fields wBases ++ stable_sort (own_fields wAttrs)).map Prod.fst).Nodup ∧
    get_declared_composite_fields wBases wAttrs =
      bases_fields wBases ++ stable_sort (own_fields wAttrs) :=
  ⟨by decide, (metaclass_collection_order wBases wAttrs (by decide)).1⟩

/-! ### Characterising `_init_composite_fields` and the instance mappings -/

theorem init_loop_eq (cfs : List (String × CompositeField)) :
    ∀ acc : List (String × Composite) × List (String × Composite),
      cfs.foldl
        (fun acc nf =>
          let acc1 :=
            match nf.2.get_form with
            | some form => (acc.1 ++ [(nf.1, form)], acc.2)
            | none => acc
          match nf.2.get_formset with
          | some formset => (acc1.1, acc1.2 ++ [(nf.1, formset)])
          | none => acc1)
        acc = (acc.1 ++ forms_of cfs, acc.2 ++ formsets_of cfs) := by
  induction cfs with
  | nil =>
      intro acc
      simp [forms_of, formsets_of]
  | cons nf rest ih =>
      intro acc
      simp only [List.foldl_cons]
      rw [ih]
      cases hf : nf.2.get_form with
      | none =>
          cases hfs : nf.2.get_formset with
          | none => simp [forms_of, formsets_of, List.filterMap_cons, hf, hfs]
          | some c => simp [forms_of, formsets_of, List.filterMap_cons, hf, hfs]
      | some c =>
          cases hfs : nf.2.get_formset with
          | none => simp [forms_of, formsets_of, List.filterMap_cons, hf, hfs]
          | some d => simp [forms_of, formsets_of, List.filterMap_cons, hf, hfs]

theorem init_composite_fields_eq (cfs : List (String × CompositeField)) :
    init_composite_fields cfs = (forms_of cfs, formsets_of cfs) := by
  have h := init_loop_eq cfs ([], [])
  simpa [init_composite_fields] using h

theorem forms_eq (p : ParentForm) : p.forms = forms_of p.composite_fields := by
  rw [ParentForm.forms, init_composite_fields_eq]

theorem formsets_eq (p : ParentForm) : p.formsets = formsets_of p.composite_fields := by
  rw [ParentForm.formsets, init_composite_fields_eq]

theorem names_sublist_of_filterMap (g : String × CompositeField → Option Composite)
    (cfs : List (String × CompositeField)) :
    List.Sublist
      ((cfs.filterMap fun nf => (g nf).map fun c => (nf.1, c)).map Prod.fst)
      (cfs.map Prod.fst) := by
  induction cfs with
  | nil => simp
  | cons nf rest ih =>
      cases hg : g nf with
      | none =>
          simp only [List.filterMap_cons, hg, Option.map_none', List.map_cons]
          exact ih.cons nf.1
      | some c =>
          simp only [List.filterMap_cons, hg, Option.map_some', List.map_cons]
          exact ih.cons₂ nf.1

theorem forms_of_names_sublist (cfs : List (String × CompositeField)) :
    List.Sublist ((forms_of cfs).map Prod.fst) (cfs.map Prod.fst) :=
  names_sublist_of_filterMap (fun nf => nf.2.get_form) cfs

theorem formsets_of_names_sublist (cfs : List (String × CompositeField)) :
    List.Sublist ((formsets_of cfs).map Prod.fst) (cfs.map Prod.fst) :=
  names_sublist_of_filterMap (fun nf => nf.2.get_formset) cfs

theorem saved_forms_decl_eq (cfs : List (String × CompositeField)) :
    saved_forms_decl cfs =
      cfs.filterMap fun nf =>
        (if nf.2.save then nf.2.get_form else none).map fun c => (nf.1, c) := by
  unfold saved_forms_decl
  congr 1
  funext nf
  cases hf : nf.2.get_form <;> cases hs : nf.2.save <;> simp [hf, hs]

theorem saved_formsets_decl_eq (cfs : List (String × CompositeField)) :
    saved_formsets_decl cfs =
      cfs.filterMap fun nf =>
        (if nf.2.save then nf.2.get_formset else none).map fun c => (nf.1, c) := by
  unfold saved_formsets_decl
  congr 1
  funext nf
  cases hf : nf.2.get_formset <;> cases hs : nf.2.save <;> simp [hf, hs]

theorem saved_forms_decl_names_sublist (cfs : List (String × CompositeField)) :
    List.Sublist ((saved_forms_decl cfs).map Prod.fst) (cfs.map Prod.fst) := by
  rw [saved_forms_decl_eq]
  exact names_sublist_of_filterMap (fun nf => if nf.2.save then nf.2.get_form else none) cfs

theorem saved_formsets_decl_names_sublist (cfs : List (String × CompositeField)) :
    List.Sublist ((saved_formsets_decl cfs).map Prod.fst) (cfs.map Prod.fst) := by
  rw [saved_formsets_decl_eq]
  exact names_sublist_of_filterMap (fun nf => if nf.2.save then nf.2.get_formset else none) cfs

theorem mem_forms_of {cfs : List (String × CompositeField)} {n : String}
    {c : Composite} :
    (n, c) ∈ forms_of cfs ↔ ∃ f, (n, f) ∈ cfs ∧ f.get_form = some c := by
  constructor
  · intro h
    rcases List.mem_filterMap.mp h with ⟨nf, hmem, heq⟩
    rcases Option.map_eq_some'.mp heq with ⟨c', hc', heq2⟩
    have h1 : nf.1 = n := congrArg Prod.fst heq2
    have h2 : c' = c := congrArg Prod.snd heq2
    refine ⟨nf.2, ?_, by rw [hc', h2]⟩
    rw [← h1]
    simpa using hmem
  · rintro ⟨f, hf, hform⟩
    exact List.mem_filterMap.mpr ⟨(n, f), hf, by simp [hform]⟩

theorem mem_formsets_of {cfs : List (String × CompositeField)} {n : String}
    {c : Composite} :
    (n, c) ∈ formsets_of cfs ↔ ∃ f, (n, f) ∈ cfs ∧ f.get_formset = some c := by
  constructor
  · intro h
    rcases List.mem_filterMap.mp h with ⟨nf, hmem, heq⟩
    rcases Option.map_eq_some'.mp heq with ⟨c', hc', heq2⟩
    have h1 : nf.1 = n := congrArg Prod.fst heq2
    have h2 : c' = c := congrArg Prod.snd heq2
    refine ⟨nf.2, ?_, by rw [hc', h2]⟩
    rw [← h1]
    simpa using hmem
  · rintro ⟨f, hf, hform⟩
    exact List.mem_filterMap.mpr ⟨(n, f), hf, by simp [hform]⟩

theorem mem_unique_of_nodup {cfs : List (String × CompositeField)}
    (hnd : (cfs.map Prod.fst).Nodup) {n : String} {f g : CompositeField}
    (hf : (n, f) ∈ cfs) (hg : (n, g) ∈ cfs) : f = g := by
  induction cfs with
  | nil => cases hf
  | cons q rest ih =>
      have hnd0 : (q.1 :: rest.map Prod.fst).Nodup := by simpa using hnd
      have hnd1 : q.1 ∉ rest.map Prod.fst ∧ (rest.map Prod.fst).Nodup :=
        List.nodup_cons.mp hnd0
      rcases List.mem_cons.mp hf with hf1 | hf2
      · rcases List.mem_cons.mp hg with hg1 | hg2
        · rw [← hf1] at hg1
          exact (congrArg Prod.snd hg1).symm
        · exfalso
          apply hnd1.1
          rw [← hf1]
          exact List.mem_map.mpr ⟨(n, g), hg2, rfl⟩
      · rcases List.mem_cons.mp hg with hg1 | hg2
        · exfalso
          apply hnd1.1
          rw [← hg1]
          exact List.mem_map.mpr ⟨(n, f), hf2, rfl⟩
        · exact ih hnd1.2 hf2 hg2

theorem lookup_eq_of_mem_nodup {cfs : List (String × CompositeField)}
    (hnd : (cfs.map Prod.fst).Nodup) {n : String} {f : CompositeField}
    (hf : (n, f) ∈ cfs) : cfs.lookup n = some f := by
  induction cfs with
  | nil => cases hf
  | cons q rest ih =>
      have hnd0 : (q.1 :: rest.map Prod.fst).Nodup := by simpa using hnd
      have hnd1 : q.1 ∉ rest.map Prod.fst ∧ (rest.map Prod.fst).Nodup :=
        List.nodup_cons.mp hnd0
      rcases List.mem_cons.mp hf with hf1 | hf2
      · rw [← hf1]
        simp [List.lookup]
      · have hne : n ≠ q.1 := by
          intro he
          apply hnd1.1
          rw [← he]
          exact List.mem_map.mpr ⟨(n, f), hf2, rfl⟩
        have hbe : (n == q.1) = false := by
          simp only [beq_eq_false_iff_ne, ne_eq]
          exact hne
        simp [List.lookup, hbe, ih hnd1.2 hf2]

/-! ### C7 -/

/-- C7: a declared composite field contributes an entry to the per-instance
sub-forms mapping iff it declares `get_form`, an entry to the sub-formsets
mapping iff it declares `get_formset`, and a field with neither capability
yields no instantiated composite. -/
theorem capability_instantiation (p : ParentForm)
    (hnd : (p.composite_fields.map Prod.fst).Nodup)
    (n : String) (f : CompositeField) (hmem : (n, f) ∈ p.composite_fields) :
    ((∃ c, (n, c) ∈ p.forms) ↔ f.get_form.isSome = true) ∧
    ((∃ c, (n, c) ∈ p.formsets) ↔ f.get_formset.isSome = true) := by
  rw [forms_eq, formsets_eq]
  constructor
  · constructor
    · rintro ⟨c, hc⟩
      rcases mem_forms_of.mp hc with ⟨g, hg, hgf⟩
      rw [mem_unique_of_nodup hnd hmem hg, hgf]
      rfl
    · intro hs
      rcases Option.isSome_iff_exists.mp hs with ⟨c, hc⟩
      exact ⟨c, mem_forms_of.mpr ⟨f, hmem, hc⟩⟩
  · constructor
    · rintro ⟨c, hc⟩
      rcases mem_formsets_of.mp hc with ⟨g, hg, hgf⟩
      rw [mem_unique_of_nodup hnd hmem hg, hgf]
      rfl
    · intro hs
      rcases Option.isSome_iff_exists.mp hs with ⟨c, hc⟩
      exact ⟨c, mem_formsets_of.mpr ⟨f, hmem, hc⟩⟩

/-- C7 witness: instantiated at the parent with one form-capability field and
one formset-capability field. -/
theorem capability_instantiation_witness :
    (pTwoPhase.composite_fields.map Prod.fst).Nodup ∧
    ("a", fFormSave) ∈ pTwoPhase.composite_fields ∧
    ((∃ c, ("a", c) ∈ pTwoPhase.forms) ↔ fFormSave.get_form.isSome = true) :=
  ⟨by decide, by decide,
    (capability_instantiation pTwoPhase (by decide) "a" fFormSave (by decide)).1⟩

/-! ### Lemmas about `attach_errors` and `full_clean` -/

theorem attach_errors_cons (mk : Composite → ErrorEntry) (kc : String × Composite)
    (rest : List (String × Composite)) (e0 : List (String × ErrorEntry)) :
    attach_errors mk (kc :: rest) e0 =
      attach_errors mk rest
        (if kc.2.is_valid then e0 else dictSet e0 (kc.1, mk kc.2)) := rfl

theorem attach_errors_frame (mk : Composite → ErrorEntry)
    (l : List (String × Composite)) (k : String) :
    ∀ e0 : List (String × ErrorEntry),
      (∀ kc ∈ l, kc.1 = k → kc.2.is_valid = true) →
      (attach_errors mk l e0).lookup k = e0.lookup k := by
  induction l with
  | nil =>
      intro e0 _
      rfl
  | cons kc rest ih =>
      intro e0 hval
      rw [attach_errors_cons]
      by_cases hv : kc.2.is_valid
      · rw [if_pos hv]
        exact ih e0 fun kc2 h2 => hval kc2 (by simp [h2])
      · rw [if_neg hv]
        have hne : kc.1 ≠ k := by
          intro he
          exact hv (hval kc (by simp) he)
        rw [ih _ fun kc2 h2 => hval kc2 (by simp [h2]),
          lookup_dictSet_ne e0 kc.1 k (mk kc.2) (Ne.symm hne)]

theorem attach_errors_write (mk : Composite → ErrorEntry)
    (l : List (String × Composite)) (hnd : (l.map Prod.fst).Nodup)
    {k : String} {c : Composite} (hmem : (k, c) ∈ l)
    (hinv : c.is_valid = false) :
    ∀ e0 : List (String × ErrorEntry),
      (attach_errors mk l e0).lookup k = some (mk c) := by
  induction l with
  | nil => cases hmem
  | cons kc rest ih =>
      intro e0
      have hnd0 : (kc.1 :: rest.map Prod.fst).Nodup := by simpa using hnd
      have hnd1 := List.nodup_cons.mp hnd0
      rw [attach_errors_cons]
      rcases List.mem_cons.mp hmem with h1 | h2
      · have hk : kc.1 = k := (congrArg Prod.fst h1).symm
        have hc : kc.2 = c := (congrArg Prod.snd h1).symm
        rw [hc, hinv]
        simp only [Bool.false_eq_true, if_false]
        rw [attach_errors_frame mk rest k _ ?_, hk, lookup_dictSet_self]
        intro kc2 hkc2 heq
        exfalso
        apply hnd1.1
        rw [hk, ← heq]
        exact List.mem_map.mpr ⟨kc2, hkc2, rfl⟩
      · have hne : kc.1 ≠ k := by
          intro he
          apply hnd1.1
          rw [he]
          exact List.mem_map.mpr ⟨(k, c), h2, rfl⟩
        by_cases hv : kc.2.is_valid
        · rw [if_pos hv]
          exact ih hnd1.2 h2 e0
        · rw [if_neg hv]
          exact ih hnd1.2 h2 _

theorem attach_errors_isSome_mono (mk : Composite → ErrorEntry)
    (l : List (String × Composite)) (k : String) :
    ∀ e0 : List (String × ErrorEntry),
      ((e0.lookup k).isSome = true) →
      ((attach_errors mk l e0).lookup k).isSome = true := by
  induction l with
  | nil =>
      intro e0 h
      exact h
  | cons kc rest ih =>
      intro e0 h
      rw [attach_errors_cons]
      by_cases hv : kc.2.is_valid
      · rw [if_pos hv]
        exact ih e0 h
      · rw [if_neg hv]
        by_cases hk : kc.1 = k
        · refine ih _ ?_
          rw [hk, lookup_dictSet_self]
          rfl
        · refine ih _ ?_
          rw [lookup_dictSet_ne e0 kc.1 k (mk kc.2) (Ne.symm hk)]
          exact h

theorem lookup_isSome_ne_nil {e : List (String × ErrorEntry)} {k : String}
    (h : (e.lookup k).isSome = true) : e.isEmpty = false := by
  cases e with
  | nil => simp [List.lookup] at h
  | cons q rest => rfl

theorem full_clean_eq (p : ParentForm) :
    full_clean p =
      attach_errors (fun c => ErrorEntry.elist c.errors) p.formsets
        (attach_errors (fun c => ErrorEntry.edict c.errors) p.forms
          p.base_errors) := rfl

/-! ### C5 -/

/-- C5 (amended): after `full_clean`, an invalid sub-formset's errors appear
list-shaped under exactly its field name; an invalid sub-form always
contributes an entry under its name, and that entry is its own dict-shaped
errors provided no invalid sub-formset shares the same name (the formset loop
runs second and overwrites a shared name); and the parent's `is_valid` is
false whenever any composite is invalid. -/
theorem composite_errors_attached (p : ParentForm)
    (hnd : (p.composite_fields.map Prod.fst).Nodup) :
    (∀ kc ∈ p.formsets, kc.2.is_valid = false →
      (full_clean p).lookup kc.1 = some (ErrorEntry.elist kc.2.errors)) ∧
    (∀ kc ∈ p.forms, kc.2.is_valid = false →
      ((full_clean p).lookup kc.1).isSome = true ∧
      ((∀ kc2 ∈ p.formsets, kc2.1 = kc.1 → kc2.2.is_valid = true) →
        (full_clean p).lookup kc.1 = some (ErrorEntry.edict kc.2.errors))) ∧
    ((∃ kc, (kc ∈ p.forms ∨ kc ∈ p.formsets) ∧ kc.2.is_valid = false) →
      p.is_valid = false) := by
  have hndForms : (p.forms.map Prod.fst).Nodup := by
    rw [forms_eq]
    exact List.Nodup.sublist (forms_of_names_sublist p.composite_fields) hnd
  have hndFormsets : (p.formsets.map Prod.fst).Nodup := by
    rw [formsets_eq]
    exact List.Nodup.sublist (formsets_of_names_sublist p.composite_fields) hnd
  have hFormWrite : ∀ kc ∈ p.forms, kc.2.is_valid = false →
      ((full_clean p).lookup kc.1).isSome = true := by
    intro kc hmem hinv
    rw [full_clean_eq]
    refine attach_errors_isSome_mono _ p.formsets kc.1 _ ?_
    rw [attach_errors_write (fun c => ErrorEntry.edict c.errors) p.forms
      hndForms (by simpa using hmem) hinv p.base_errors]
    rfl
  refine ⟨?_, ?_, ?_⟩
  · intro kc hmem hinv
    rw [full_clean_eq]
    exact attach_errors_write (fun c => ErrorEntry.elist c.errors) p.formsets
      hndFormsets (by simpa using hmem) hinv _
  · intro kc hmem hinv
    refine ⟨hFormWrite kc hmem hinv, ?_⟩
    intro hval
    rw [full_clean_eq]
    rw [attach_errors_frame (fun c => ErrorEntry.elist c.errors) p.formsets kc.1 _ hval]
    exact attach_errors_write (fun c => ErrorEntry.edict c.errors) p.forms
      hndForms (by simpa using hmem) hinv p.base_errors
  · rintro ⟨kc, hor, hinv⟩
    have hsome : ((full_clean p).lookup kc.1).isSome = true := by
      rcases hor with hform | hformset
      · exact hFormWrite kc hform hinv
      · rw [full_clean_eq]
        rw [attach_errors_write (fun c => ErrorEntry.elist c.errors) p.formsets
          hndFormsets (by simpa using hformset) hinv _]
        rfl
    rw [ParentForm.is_valid, lookup_isSome_ne_nil hsome, Bool.and_false]

/-- C5 counterexample: on a field declaring both `get_form` and
`get_formset` whose sub-form and sub-formset are both invalid, the invalid
sub-form's entry under its field name is list-shaped (the formset's), not
the dict-shaped entry holding the sub-form's own errors that the claim
requires. -/
theorem composite_errors_attached_counterexample :
    ("a", cFormBad) ∈ pOverlap.forms ∧
    cFormBad.is_valid = false ∧
    (full_clean pOverlap).lookup "a" = some (ErrorEntry.elist ["formset error"]) ∧
    ¬(full_clean pOverlap).lookup "a" = some (ErrorEntry.edict cFormBad.errors) := by
  decide

/-- C5 witness: the amended theorem applied to a parent with an invalid
sub-form and an invalid sub-formset at distinct names. -/
theorem composite_errors_attached_witness :
    (pDistinct.composite_fields.map Prod.fst).Nodup ∧
    ("fB2", cFsBad) ∈ pDistinct.formsets ∧
    (full_clean pDistinct).lookup "fB2" = some (ErrorEntry.elist ["formset error"]) :=
  ⟨by decide, by decide,
    (composite_errors_attached pDistinct (by decide)).1 ("fB2", cFsBad)
      (by decide) (by decide)⟩

/-! ### C6 -/

/-- C6: `full_clean` validates every composite (no short-circuit): a
composite name carries an entry in the final error collection exactly when
the sub-form or sub-formset at that name is invalid, assuming the base
form's own errors do not use composite names; and in the concrete scenario
of two sub-forms A (valid) and B (invalid), `is_valid` is false and the
error collection holds exactly one entry, keyed "B", dict-shaped, equal to
B's own errors. -/
theorem no_short_circuit (p : ParentForm)
    (hnd : (p.composite_fields.map Prod.fst).Nodup)
    (hbase : ∀ nf ∈ p.composite_fields, p.base_errors.lookup nf.1 = none) :
    (∀ nf ∈ p.composite_fields,
      (((full_clean p).lookup nf.1).isSome = true ↔
        (∃ c, (nf.1, c) ∈ p.forms ∧ c.is_valid = false) ∨
        (∃ c, (nf.1, c) ∈ p.formsets ∧ c.is_valid = false))) ∧
    pAB.is_valid = false ∧
    full_clean pAB = [("B", ErrorEntry.edict ["B invalid"])] := by
  have hndForms : (p.forms.map Prod.fst).Nodup := by
    rw [forms_eq]
    exact List.Nodup.sublist (forms_of_names_sublist p.composite_fields) hnd
  have hndFormsets : (p.formsets.map Prod.fst).Nodup := by
    rw [formsets_eq]
    exact List.Nodup.sublist (formsets_of_names_sublist p.composite_fields) hnd
  refine ⟨?_, by decide, by decide⟩
  intro nf hmem
  constructor
  · intro hsome
    by_contra hboth
    push_neg at hboth
    have hformval : ∀ kc ∈ p.forms, kc.1 = nf.1 → kc.2.is_valid = true := by
      intro kc hkc heq
      have h1 := hboth.1 kc.2 (by
        rw [← heq]
        simpa using hkc)
      exact Bool.of_not_eq_false h1
    have hformsetval : ∀ kc ∈ p.formsets, kc.1 = nf.1 → kc.2.is_valid = true := by
      intro kc hkc heq
      have h1 := hboth.2 kc.2 (by
        rw [← heq]
        simpa using hkc)
      exact Bool.of_not_eq_false h1
    rw [full_clean_eq,
      attach_errors_frame (fun c => ErrorEntry.elist c.errors) p.formsets nf.1 _
        hformsetval,
      attach_errors_frame (fun c => ErrorEntry.edict c.errors) p.forms nf.1 _
        hformval,
      hbase nf hmem] at hsome
    simp at hsome
  · rintro (⟨c, hc, hinv⟩ | ⟨c, hc, hinv⟩)
    · rw [full_clean_eq]
      refine attach_errors_isSome_mono _ p.formsets nf.1 _ ?_
      rw [attach_errors_write (fun c => ErrorEntry.edict c.errors) p.forms
        hndForms hc hinv p.base_errors]
      rfl
    · rw [full_clean_eq,
        attach_errors_write (fun c => ErrorEntry.elist c.errors) p.formsets
          hndFormsets hc hinv _]
      rfl

/-- C6 witness: the theorem applied to the two-sub-form scenario itself. -/
theorem no_short_circuit_witness :
    (pAB.composite_fields.map Prod.fst).Nodup ∧
    pAB.is_valid = false ∧
    full_clean pAB = [("B", ErrorEntry.edict ["B invalid"])] :=
  ⟨by decide,
    (no_short_circuit pAB (by decide) (by decide)).2.1,
    (no_short_circuit pAB (by decide) (by decide)).2.2⟩

/-! ### Lemmas about the save loop -/

theorem lookup_cons_self (nf : String × CompositeField)
    (rest : List (String × CompositeField)) :
    (nf :: rest).lookup nf.1 = some nf.2 := by
  simp [List.lookup]

theorem lookup_cons_ne {n : String} (nf : String × CompositeField)
    (rest : List (String × CompositeField)) (hne : n ≠ nf.1) :
    (nf :: rest).lookup n = rest.lookup n := by
  have hbe : (n == nf.1) = false := by
    simp only [beq_eq_false_iff_ne, ne_eq]
    exact hne
  simp [List.lookup, hbe]

theorem save_loop_aux (p : ParentForm) (commit : Bool)
    (l : List (String × Composite)) :
    ∀ acc : List Event × List Composite,
      l.foldl
        (fun acc kc =>
          match p.composite_fields.lookup kc.1 with
          | some field =>
              if field.save then
                (acc.1 ++ [Event.fieldSave kc.1 commit], acc.2 ++ [kc.2])
              else acc
          | none => acc)
        acc =
      (acc.1 ++ (l.filter fun kc => lookup_save p.composite_fields kc.1).map
          fun kc => Event.fieldSave kc.1 commit,
       acc.2 ++ (l.filter fun kc => lookup_save p.composite_fields kc.1).map
          Prod.snd) := by
  induction l with
  | nil =>
      intro acc
      simp
  | cons kc rest ih =>
      intro acc
      simp only [List.foldl_cons]
      rw [ih]
      cases hl : p.composite_fields.lookup kc.1 with
      | none => simp [List.filter_cons, lookup_save, hl]
      | some field =>
          by_cases hs : field.save
          · simp [List.filter_cons, lookup_save, hl, hs, List.append_assoc]
          · simp [List.filter_cons, lookup_save, hl, hs]

theorem save_loop_eq (p : ParentForm) (l : List (String × Composite))
    (commit : Bool) :
    save_loop p l commit =
      ((l.filter fun kc => lookup_save p.composite_fields kc.1).map
          fun kc => Event.fieldSave kc.1 commit,
       (l.filter fun kc => lookup_save p.composite_fields kc.1).map Prod.snd) := by
  have h := save_loop_aux p commit l ([], [])
  simpa [save_loop] using h

theorem filter_filterMap_saved (g : CompositeField → Option Composite)
    (cfs : List (String × CompositeField))
    (hnd : (cfs.map Prod.fst).Nodup) :
    ((cfs.filterMap fun nf => (g nf.2).map fun c => (nf.1, c)).filter
        fun kc => lookup_save cfs kc.1) =
      cfs.filterMap fun nf =>
        match g nf.2 with
        | some c => if nf.2.save then some (nf.1, c) else none
        | none => none := by
  induction cfs with
  | nil => rfl
  | cons nf rest ih =>
      have hnd0 : (nf.1 :: rest.map Prod.fst).Nodup := by simpa using hnd
      have hnd1 := List.nodup_cons.mp hnd0
      have hcongr :
          ((rest.filterMap fun nf2 => (g nf2.2).map fun c => (nf2.1, c)).filter
              fun kc => lookup_save (nf :: rest) kc.1) =
            ((rest.filterMap fun nf2 => (g nf2.2).map fun c => (nf2.1, c)).filter
              fun kc => lookup_save rest kc.1) := by
        refine List.filter_congr ?_
        intro kc hkc
        have hkname : kc.1 ∈ rest.map Prod.fst := by
          refine (names_sublist_of_filterMap (fun nf2 => g nf2.2) rest).subset ?_
          exact List.mem_map.mpr ⟨kc, hkc, rfl⟩
        have hne : kc.1 ≠ nf.1 := by
          intro he
          exact hnd1.1 (he ▸ hkname)
        rw [lookup_save, lookup_save, lookup_cons_ne nf rest hne]
      cases hg : g nf.2 with
      | none =>
          simp only [List.filterMap_cons, hg, Option.map_none']
          rw [hcongr, ih hnd1.2]
      | some c =>
          simp only [List.filterMap_cons, hg, Option.map_some', List.filter_cons]
          have hlook : lookup_save (nf :: rest) nf.1 = nf.2.save := by
            rw [lookup_save, lookup_cons_self]
          by_cases hs : nf.2.save
          · simp only [hlook, hs, if_pos trivial]
            rw [hcongr, ih hnd1.2]
          · have hs' : nf.2.save = false := Bool.of_not_eq_true hs
            simp only [hlook, hs', Bool.false_eq_true, if_false]
            rw [hcongr, ih hnd1.2]

theorem saved_forms_filter_eq (p : ParentForm)
    (hnd : (p.composite_fields.map Prod.fst).Nodup) :
    (p.forms.filter fun kc => lookup_save p.composite_fields kc.1) =
      saved_forms_decl p.composite_fields := by
  rw [forms_eq]
  exact filter_filterMap_saved CompositeField.get_form p.composite_fields hnd

theorem saved_formsets_filter_eq (p : ParentForm)
    (hnd : (p.composite_fields.map Prod.fst).Nodup) :
    (p.formsets.filter fun kc => lookup_save p.composite_fields kc.1) =
      saved_formsets_decl p.composite_fields := by
  rw [formsets_eq]
  exact filter_filterMap_saved CompositeField.get_formset p.composite_fields hnd

/-! ### Lemmas about `_extend_save_m2m` -/

theorem flatten_singletons (l : List Event) :
    (l.map fun e => [e]).flatten = l := by
  induction l with
  | nil => rfl
  | cons e rest ih => simp [ih]

theorem composite_save_m2m_filterMap (comps : List Composite) :
    comps.filterMap composite_save_m2m = (m2m_events comps).map fun e => [e] := by
  induction comps with
  | nil => rfl
  | cons c rest ih =>
      cases hm : c.m2m with
      | none =>
          simp [List.filterMap_cons, composite_save_m2m, m2m_events, hm]
          simpa [m2m_events] using ih
      | some t =>
          simp [List.filterMap_cons, composite_save_m2m, m2m_events, hm]
          simpa [m2m_events] using ih

theorem extend_noop (st : M2mState) (name : String) (comps : List Composite)
    (h : m2m_events comps = []) : extend_save_m2m st name comps = st := by
  unfold extend_save_m2m
  rw [composite_save_m2m_filterMap, h]
  rfl

theorem extend_forms_m2m (st : M2mState) (comps : List Composite)
    (h : ¬m2m_events comps = []) :
    extend_save_m2m st "save_forms_m2m" comps =
      ⟨some (st.save_m2m.getD [] ++ m2m_events comps),
       some (m2m_events comps), st.save_formsets_m2m⟩ := by
  unfold extend_save_m2m
  rw [composite_save_m2m_filterMap]
  have hne : ((m2m_events comps).map fun e => [e]).isEmpty = false := by
    cases hm : m2m_events comps with
    | nil => exact absurd hm h
    | cons a l => simp [hm]
  simp only [hne, Bool.false_eq_true, if_false, flatten_singletons, if_pos]
  have horig : (match st.save_m2m with
      | some f => f
      | none => ([] : List Event)) = st.save_m2m.getD [] := by
    cases st.save_m2m <;> rfl
  rw [horig]

theorem extend_formsets_m2m (st : M2mState) (comps : List Composite)
    (h : ¬m2m_events comps = []) :
    extend_save_m2m st "save_formsets_m2m" comps =
      ⟨some (st.save_m2m.getD [] ++ m2m_events comps),
       st.save_forms_m2m, some (m2m_events comps)⟩ := by
  unfold extend_save_m2m
  rw [composite_save_m2m_filterMap]
  have hne : ((m2m_events comps).map fun e => [e]).isEmpty = false := by
    cases hm : m2m_events comps with
    | nil => exact absurd hm h
    | cons a l => simp [hm]
  have hn1 : ¬("save_formsets_m2m" = "save_forms_m2m") := by decide
  simp only [hne, Bool.false_eq_true, if_false, flatten_singletons,
    if_neg hn1, if_pos]
  have horig : (match st.save_m2m with
      | some f => f
      | none => ([] : List Event)) = st.save_m2m.getD [] := by
    cases st.save_m2m <;> rfl
  rw [horig]

theorem save_forms_eq_decl (p : ParentForm) (st : M2mState) (commit : Bool)
    (hnd : (p.composite_fields.map Prod.fst).Nodup) :
    save_forms p st commit =
      (form_save_events p.composite_fields commit,
       extend_save_m2m st "save_forms_m2m"
         ((saved_forms_decl p.composite_fields).map Prod.snd)) := by
  unfold save_forms
  rw [save_loop_eq, saved_forms_filter_eq p hnd]
  rfl

theorem save_formsets_eq_decl (p : ParentForm) (st : M2mState) (commit : Bool)
    (hnd : (p.composite_fields.map Prod.fst).Nodup) :
    save_formsets p st commit =
      (formset_save_events p.composite_fields commit,
       extend_save_m2m st "save_formsets_m2m"
         ((saved_formsets_decl p.composite_fields).map Prod.snd)) := by
  unfold save_formsets
  rw [save_loop_eq, saved_formsets_filter_eq p hnd]
  rfl

theorem save_unfold (p : ParentForm) (st : M2mState) (commit : Bool) :
    p.save st commit =
      ((framework_save p st commit).1,
       (framework_save p st commit).2.1 ++
         (save_forms p (framework_save p st commit).2.2 commit).1 ++
         (save_formsets p
           (save_forms p (framework_save p st commit).2.2 commit).2 commit).1,
       (save_formsets p
         (save_forms p (framework_save p st commit).2.2 commit).2 commit).2) := rfl

theorem saved_form_m2ms_def (cfs : List (String × CompositeField)) :
    m2m_events ((saved_forms_decl cfs).map Prod.snd) = saved_form_m2ms cfs := rfl

theorem saved_formset_m2ms_def (cfs : List (String × CompositeField)) :
    m2m_events ((saved_formsets_decl cfs).map Prod.snd) = saved_formset_m2ms cfs := rfl

theorem save_false_state (p : ParentForm)
    (hnd : (p.composite_fields.map Prod.fst).Nodup) :
    (p.save initState false).2.2 =
      { save_m2m := some (Event.origM2m ::
          (saved_form_m2ms p.composite_fields ++
           saved_formset_m2ms p.composite_fields)),
        save_forms_m2m :=
          if saved_form_m2ms p.composite_fields = [] then none
          else some (saved_form_m2ms p.composite_fields),
        save_formsets_m2m :=
          if saved_formset_m2ms p.composite_fields = [] then none
          else some (saved_formset_m2ms p.composite_fields) } := by
  rw [save_unfold, save_forms_eq_decl _ _ _ hnd, save_formsets_eq_decl _ _ _ hnd]
  have h0 : (framework_save p initState false).2.2 =
      (⟨some [Event.origM2m], none, none⟩ : M2mState) := rfl
  by_cases ha : saved_form_m2ms p.composite_fields = []
  · by_cases hb : saved_formset_m2ms p.composite_fields = []
    · simp only [h0, extend_noop _ _ _ ha, extend_noop _ _ _ hb,
        saved_form_m2ms_def, saved_formset_m2ms_def]
      simp [ha, hb]
    · simp only [h0, extend_noop _ _ _ ha, extend_formsets_m2m _ _ hb,
        saved_form_m2ms_def, saved_formset_m2ms_def]
      simp [ha, hb]
  · by_cases hb : saved_formset_m2ms p.composite_fields = []
    · simp only [h0, extend_forms_m2m _ _ ha, extend_noop _ _ _ hb,
        saved_form_m2ms_def, saved_formset_m2ms_def]
      simp [ha, hb]
    · simp only [h0, extend_forms_m2m _ _ ha, extend_formsets_m2m _ _ hb,
        saved_form_m2ms_def, saved_formset_m2ms_def]
      simp [ha, hb]

/-! ### C2 -/

/-- C2: `save(commit)` performs the framework save exactly once, first, with
the commit flag forwarded unchanged; then the `field.save` calls of the
sub-form phase and then those of the sub-formset phase, each in declaration
order restricted to fields that declare `save` (others are silently
skipped); and it returns the framework's saved object unchanged. -/
theorem composite_save_behavior (p : ParentForm) (st : M2mState) (commit : Bool)
    (hnd : (p.composite_fields.map Prod.fst).Nodup) :
    (p.save st commit).1 = p.inst ∧
    (p.save st commit).2.1 =
      Event.frameworkSave commit ::
        (form_save_events p.composite_fields commit ++
         formset_save_events p.composite_fields commit) ∧
    (p.save st commit).2.1.countP is_framework_save = 1 := by
  have htrace : (p.save st commit).2.1 =
      Event.frameworkSave commit ::
        (form_save_events p.composite_fields commit ++
         formset_save_events p.composite_fields commit) := by
    rw [save_unfold, save_forms_eq_decl _ _ _ hnd, save_formsets_eq_decl _ _ _ hnd]
    rfl
  refine ⟨rfl, htrace, ?_⟩
  rw [htrace]
  have hforms : (form_save_events p.composite_fields commit).countP
      is_framework_save = 0 := by
    refine List.countP_eq_zero.mpr ?_
    intro e he
    rcases List.mem_map.mp he with ⟨kc, _, heq⟩
    rw [← heq]
    simp [is_framework_save]
  have hformsets : (formset_save_events p.composite_fields commit).countP
      is_framework_save = 0 := by
    refine List.countP_eq_zero.mpr ?_
    intro e he
    rcases List.mem_map.mp he with ⟨kc, _, heq⟩
    rw [← heq]
    simp [is_framework_save]
  simp [List.countP_cons, List.countP_append, hforms, hformsets, is_framework_save]

/-- C2 witness: the save behaviour at a concrete parent with one saved
sub-form and one saved sub-formset, `commit = true`. -/
theorem composite_save_behavior_witness :
    (pTwoPhase.composite_fields.map Prod.fst).Nodup ∧
    (pTwoPhase.save initState true).2.1 =
      Event.frameworkSave true ::
        (form_save_events pTwoPhase.composite_fields true ++
         formset_save_events pTwoPhase.composite_fields true) :=
  ⟨by decide, (composite_save_behavior pTwoPhase initState true (by decide)).2.1⟩

/-! ### C3 -/

/-- C3 (amended): after `save(commit=False)` on a fresh instance, the final
deferred callback runs the parent's original deferred save first, then the
`save_m2m` callbacks of the sub-form composites that were saved (their field
declares `save`) and exposed one, in declaration order, then likewise the
saved sub-formset composites' callbacks; composites whose field declares no
`save` capability are not chained, even when they expose `save_m2m`. -/
theorem save_uncommitted_m2m_chain (p : ParentForm)
    (hnd : (p.composite_fields.map Prod.fst).Nodup) :
    (p.save initState false).2.2.save_m2m =
      some (Event.origM2m ::
        (saved_form_m2ms p.composite_fields ++
         saved_formset_m2ms p.composite_fields)) := by
  rw [save_false_state p hnd]

/-- C3 counterexample: a sub-form composite exposing `save_m2m` whose field
declares no `save` capability is not chained into the final deferred
callback, contradicting the claim that every composite exposing such a
callback is invoked. -/
theorem save_uncommitted_m2m_chain_counterexample :
    ("a", cM2m7) ∈ pNoSave.forms ∧
    cM2m7.m2m.isSome = true ∧
    (pNoSave.save initState false).2.2.save_m2m = some [Event.origM2m] ∧
    Event.compM2m 7 ∉ ((pNoSave.save initState false).2.2.save_m2m.getD []) := by
  decide

/-- C3 witness: the amended chain at a concrete parent with one saved
sub-form and one saved sub-formset, both exposing `save_m2m`. -/
theorem save_uncommitted_m2m_chain_witness :
    (pTwoPhase.composite_fields.map Prod.fst).Nodup ∧
    (pTwoPhase.save initState false).2.2.save_m2m =
      some (Event.origM2m ::
        (saved_form_m2ms pTwoPhase.composite_fields ++
         saved_formset_m2ms pTwoPhase.composite_fields)) :=
  ⟨by decide, save_uncommitted_m2m_chain pTwoPhase (by decide)⟩

/-! ### C4 -/

/-- C4 (amended): after both augmentations have occurred, the forms-only
callback `save_forms_m2m` still holds exactly the sub-form composites'
deferred saves: the second augmentation wraps the combined `save_m2m`
attribute, not the previously stored named callback, so invoking
`save_forms_m2m` does not trigger the formset composites' deferred saves. -/
theorem save_forms_m2m_forms_only (p : ParentForm)
    (hnd : (p.composite_fields.map Prod.fst).Nodup)
    (h1 : ¬saved_form_m2ms p.composite_fields = [])
    (h2 : ¬saved_formset_m2ms p.composite_fields = []) :
    (p.save initState false).2.2.save_forms_m2m =
      some (saved_form_m2ms p.composite_fields) ∧
    (p.save initState false).2.2.save_formsets_m2m =
      some (saved_formset_m2ms p.composite_fields) := by
  rw [save_false_state p hnd]
  simp [h1, h2]

/-- C4 counterexample: with one saved sub-form (m2m tag 1) and one saved
sub-formset (m2m tag 2), both augmentations occur, yet invoking the earlier
forms-only callback emits only the sub-form's deferred save — the formset's
save is absent, contradicting the claimed in-place wrapping. -/
theorem save_forms_m2m_forms_only_counterexample :
    (pTwoPhase.save initState false).2.2.save_forms_m2m =
      some [Event.compM2m 1] ∧
    (pTwoPhase.save initState false).2.2.save_formsets_m2m =
      some [Event.compM2m 2] ∧
    Event.compM2m 2 ∉
      ((pTwoPhase.save initState false).2.2.save_forms_m2m.getD []) := by
  decide

/-- C4 witness: the amended statement at the same two-composite parent. -/
theorem save_forms_m2m_forms_only_witness :
    (pTwoPhase.composite_fields.map Prod.fst).Nodup ∧
    ¬saved_form_m2ms pTwoPhase.composite_fields = [] ∧
    ¬saved_formset_m2ms pTwoPhase.composite_fields = [] ∧
    (pTwoPhase.save initState false).2.2.save_forms_m2m =
      some (saved_form_m2ms pTwoPhase.composite_fields) :=
  ⟨by decide, by decide, by decide,
    (save_forms_m2m_forms_only pTwoPhase (by decide) (by decide) (by decide)).1⟩

/-! ### C8 -/

/-- C8: a parent whose composite-field mapping is empty validates, reports
validity, and saves (trace, state and returned object) exactly like the
unmodified base form, for every commit flag. -/
theorem no_composites_refinement (p : ParentForm) (st : M2mState) (commit : Bool)
    (h : p.composite_fields = []) :
    full_clean p = base_full_clean p ∧
    p.is_valid = base_is_valid p ∧
    p.save st commit = base_save p st commit := by
  have hforms : p.forms = [] := by
    rw [forms_eq, h]
    rfl
  have hformsets : p.formsets = [] := by
    rw [formsets_eq, h]
    rfl
  have hfc : full_clean p = p.base_errors := by
    rw [full_clean_eq, hforms, hformsets]
    rfl
  refine ⟨hfc, ?_, ?_⟩
  · rw [ParentForm.is_valid, hfc]
    rfl
  · have hsf : ∀ st2, save_forms p st2 commit = ([], st2) := by
      intro st2
      unfold save_forms
      rw [save_loop_eq, hforms]
      simp only [List.filter_nil, List.map_nil]
      exact congrArg _ (extend_noop st2 "save_forms_m2m" [] rfl)
    have hsfs : ∀ st2, save_formsets p st2 commit = ([], st2) := by
      intro st2
      unfold save_formsets
      rw [save_loop_eq, hformsets]
      simp only [List.filter_nil, List.map_nil]
      exact congrArg _ (extend_noop st2 "save_formsets_m2m" [] rfl)
    rw [save_unfold, hsf, hsfs]
    simp [base_save]

/-- C8 witness: the empty-mapping parent behaves like the base form at
`commit = false`. -/
theorem no_composites_refinement_witness :
    pEmpty.composite_fields = [] ∧
    full_clean pEmpty = base_full_clean pEmpty ∧
    pEmpty.save initState false = base_save pEmpty initState false :=
  ⟨rfl, (no_composites_refinement pEmpty initState false rfl).1,
    (no_composites_refinement pEmpty initState false rfl).2.2⟩

/-! ### C9 -/

/-- C9: in each save phase, when none of the composites actually saved in
that phase exposes a `save_m2m` callback, the augmentation is a no-op: the
whole callback state — `save_m2m` and both named partial-callback
attributes — is left exactly as it was. -/
theorem extend_noop_phase (p : ParentForm) (st : M2mState) (commit : Bool) :
    ((∀ c ∈ saved_form_composites p, c.m2m = none) →
      (save_forms p st commit).2 = st) ∧
    ((∀ c ∈ saved_formset_composites p, c.m2m = none) →
      (save_formsets p st commit).2 = st) := by
  constructor
  · intro h
    show extend_save_m2m st "save_forms_m2m" (save_loop p p.forms commit).2 = st
    rw [save_loop_eq]
    refine extend_noop _ _ _ ?_
    exact List.filterMap_eq_nil_iff.mpr fun c hc => by
      rw [h c hc]
      rfl
  · intro h
    show extend_save_m2m st "save_formsets_m2m" (save_loop p p.formsets commit).2 = st
    rw [save_loop_eq]
    refine extend_noop _ _ _ ?_
    exact List.filterMap_eq_nil_iff.mpr fun c hc => by
      rw [h c hc]
      rfl

/-- C9 witness: a parent whose only saved composite exposes no `save_m2m`;
both phases leave the fresh state untouched. -/
theorem extend_noop_phase_witness :
    (save_forms pPlain initState true).2 = initState ∧
    (save_formsets pPlain initState true).2 = initState :=
  ⟨(extend_noop_phase pPlain initState true).1 (by decide),
   (extend_noop_phase pPlain initState true).2 (by decide)⟩

/-! ### C10 -/

theorem count_fieldSave_map (l : List (String × Composite)) (n : String)
    (commit : Bool) :
    (l.map fun kc => Event.fieldSave kc.1 commit).count
        (Event.fieldSave n commit) =
      (l.map Prod.fst).count n := by
  induction l with
  | nil => rfl
  | cons kc rest ih =>
      by_cases h : kc.1 = n
      · simp [List.count_cons, ih, h]
      · simp [List.count_cons, ih, h]

theorem mem_saved_forms_decl {cfs : List (String × CompositeField)} {n : String}
    {f : CompositeField} {c : Composite} (hmem : (n, f) ∈ cfs)
    (hform : f.get_form = some c) (hsave : f.save = true) :
    (n, c) ∈ saved_forms_decl cfs :=
  List.mem_filterMap.mpr ⟨(n, f), hmem, by simp [hform, hsave]⟩

theorem mem_saved_formsets_decl {cfs : List (String × CompositeField)}
    {n : String} {f : CompositeField} {c : Composite} (hmem : (n, f) ∈ cfs)
    (hformset : f.get_formset = some c) (hsave : f.save = true) :
    (n, c) ∈ saved_formsets_decl cfs :=
  List.mem_filterMap.mpr ⟨(n, f), hmem, by simp [hformset, hsave]⟩

/-- C10: a field declaring both `get_form` and `get_formset` is instantiated
into both per-instance mappings under its single name, and when it also
declares `save`, its `field.save` is invoked once in the sub-form phase and
once in the sub-formset phase — twice per parent save call. -/
theorem both_capability_double_save (p : ParentForm) (st : M2mState)
    (commit : Bool) (hnd : (p.composite_fields.map Prod.fst).Nodup)
    (n : String) (f : CompositeField) (c1 c2 : Composite)
    (hmem : (n, f) ∈ p.composite_fields)
    (hform : f.get_form = some c1) (hformset : f.get_formset = some c2)
    (hsave : f.save = true) :
    (n, c1) ∈ p.forms ∧ (n, c2) ∈ p.formsets ∧
    (save_forms p st commit).1.count (Event.fieldSave n commit) = 1 ∧
    (save_formsets p st commit).1.count (Event.fieldSave n commit) = 1 ∧
    (p.save st commit).2.1.count (Event.fieldSave n commit) = 2 := by
  have hmemf : (n, c1) ∈ p.forms := by
    rw [forms_eq]
    exact mem_forms_of.mpr ⟨f, hmem, hform⟩
  have hmemfs : (n, c2) ∈ p.formsets := by
    rw [formsets_eq]
    exact mem_formsets_of.mpr ⟨f, hmem, hformset⟩
  have hshape1 : form_save_events p.composite_fields commit =
      (saved_forms_decl p.composite_fields).map
        fun kc => Event.fieldSave kc.1 commit := rfl
  have hshape2 : formset_save_events p.composite_fields commit =
      (saved_formsets_decl p.composite_fields).map
        fun kc => Event.fieldSave kc.1 commit := rfl
  have hcount1 : (form_save_events p.composite_fields commit).count
      (Event.fieldSave n commit) = 1 := by
    rw [hshape1, count_fieldSave_map]
    refine List.count_eq_one_of_mem ?_ ?_
    · exact List.Nodup.sublist (saved_forms_decl_names_sublist _) hnd
    · exact List.mem_map.mpr ⟨(n, c1), mem_saved_forms_decl hmem hform hsave, rfl⟩
  have hcount2 : (formset_save_events p.composite_fields commit).count
      (Event.fieldSave n commit) = 1 := by
    rw [hshape2, count_fieldSave_map]
    refine List.count_eq_one_of_mem ?_ ?_
    · exact List.Nodup.sublist (saved_formsets_decl_names_sublist _) hnd
    · exact List.mem_map.mpr
        ⟨(n, c2), mem_saved_formsets_decl hmem hformset hsave, rfl⟩
  have he1 : (save_forms p st commit).1.count (Event.fieldSave n commit) = 1 := by
    rw [save_forms_eq_decl _ _ _ hnd]
    exact hcount1
  have he2 : (save_formsets p st commit).1.count (Event.fieldSave n commit) = 1 := by
    rw [save_formsets_eq_decl _ _ _ hnd]
    exact hcount2
  have htr : (p.save st commit).2.1 =
      Event.frameworkSave commit ::
        (form_save_events p.composite_fields commit ++
         formset_save_events p.composite_fields commit) := by
    rw [save_unfold, save_forms_eq_decl _ _ _ hnd, save_formsets_eq_decl _ _ _ hnd]
    rfl
  refine ⟨hmemf, hmemfs, he1, he2, ?_⟩
  rw [htr, List.count_cons, List.count_append, hcount1, hcount2]
  simp

/-- C10 witness: one field with both capabilities and `save`; its save event
appears twice in the trace of a parent save. -/
theorem both_capability_double_save_witness :
    (pBothSave.composite_fields.map Prod.fst).Nodup ∧
    ("x", fBothSave) ∈ pBothSave.composite_fields ∧
    (pBothSave.save initState true).2.1.count (Event.fieldSave "x" true) = 2 :=
  ⟨by decide, by decide,
    (both_capability_double_save pBothSave initState true (by decide) "x"
      fBothSave cM2m1 cM2m2 (by decide) (by decide) (by decide)
      (by decide)).2.2.2.2⟩
